import Mathlib

/-!  Verification of the Heston Monte Carlo option pricing engine
     (repository `OptionPricingModels`).

     The Rust source is shallowly embedded: `f64` arithmetic is modelled by
     the real numbers (the rate-curve interpolation, which uses only field
     operations and comparisons, is embedded generically over a linear
     ordered field so that it can also be run on `ℚ`), `Result<T, E>` by
     `Except`, and the mutable vectors of the pricing loops by lists built
     by structural recursion in exactly the order the loops run.  -/

namespace OptionPricing

/-- Mirrors `errors.rs`: the four variants of `OptionPricingError`,
each carrying a message string. -/
inductive OptionPricingError where
  | InvalidInput : String → OptionPricingError
  | ComputationError : String → OptionPricingError
  | RegressionError : String → OptionPricingError
  | InterpolationError : String → OptionPricingError
deriving DecidableEq

/-- Mirrors `lib.rs`: `enum OptionType { Call, Put }`. -/
inductive OptionType where
  | Call : OptionType
  | Put : OptionType
deriving DecidableEq

/-- Mirrors `data/interest_rates.rs`: a pair of (time, rate) vectors. -/
structure InterestRateCurve (K : Type) where
  times : List K
  rates : List K
deriving DecidableEq

/-- Mirrors `InterestRateCurve::new`, which stores both vectors unchanged
(no validation at construction time). -/
def InterestRateCurve.new {K : Type} (times rates : List K) : InterestRateCurve K :=
  ⟨times, rates⟩

/-- The scan loop of `interpolate_rate` (`utils/interpolation.rs`, lines
22–32): walk the consecutive pairs `(times[i], times[i+1])` and return the
linear interpolation on the first bracketing interval. -/
def bracketScan {K : Type} [LinearOrderedField K] :
    List K → List K → K → Option K
  | t0 :: t1 :: ts, r0 :: r1 :: rs, time =>
      if t0 ≤ time ∧ time ≤ t1 then
        some (r0 + (r1 - r0) * (time - t0) / (t1 - t0))
      else
        bracketScan (t1 :: ts) (r1 :: rs) time
  | _, _, _ => none

/-- Mirrors `interpolate_rate` (`utils/interpolation.rs`): reject malformed
curves, clamp at both boundaries, otherwise scan for a bracketing interval,
with a defensive `InterpolationError` fallback. -/
def interpolate_rate {K : Type} [LinearOrderedField K]
    (curve : InterestRateCurve K) (time : K) : Except OptionPricingError K :=
  if curve.times.isEmpty ∨ curve.rates.isEmpty ∨
      curve.times.length ≠ curve.rates.length then
    .error (.InvalidInput "Interest rate curve data is invalid.")
  else if time ≤ curve.times.headD 0 then
    .ok (curve.rates.headD 0)
  else if curve.times.getLastD 0 ≤ time then
    .ok (curve.rates.getLastD 0)
  else
    match bracketScan curve.times curve.rates time with
    | some r => .ok r
    | none => .error (.InterpolationError "Failed to interpolate rate.")

/-- Well-formedness of a rate curve in the sense of the data model
(§3 of the specification): non-empty, equal lengths, strictly increasing
knot times. -/
def wellFormedCurve {K : Type} [LinearOrderedField K]
    (curve : InterestRateCurve K) : Prop :=
  curve.times ≠ [] ∧ curve.times.length = curve.rates.length ∧
    curve.times.Chain' (· < ·)

/-- The malformedness guard of `interpolate_rate` does not fire on a curve
with non-empty, equal-length arrays. -/
theorem interpolate_guard_neg {K : Type} (curve : InterestRateCurve K)
    (h1 : curve.times ≠ []) (h2 : curve.times.length = curve.rates.length) :
    ¬(curve.times.isEmpty ∨ curve.rates.isEmpty ∨
      curve.times.length ≠ curve.rates.length) := by
  have hre : curve.rates ≠ [] := by
    intro h
    rw [h] at h2
    simp only [List.length_nil, List.length_eq_zero] at h2
    exact h1 h2
  simp [List.isEmpty_iff, h1, hre, h2]

section InterpolationLemmas

variable {K : Type} [LinearOrderedField K]

/-- A one-knot curve always answers with its single rate. -/
theorem interpolate_rate_singleton (t0 r0 time : K) :
    interpolate_rate ⟨[t0], [r0]⟩ time = .ok r0 := by
  by_cases h : time ≤ t0
  · simp [interpolate_rate, h]
  · simp [interpolate_rate, h, le_of_not_le h]

/-- The scan loop succeeds whenever the query lies between the first and
the last knot of a list of at least two knots (no monotonicity needed). -/
theorem bracketScan_isSome (time : K) :
    ∀ (ts rs : List K), ts.length = rs.length → 2 ≤ ts.length →
      ts.headD 0 ≤ time → time ≤ ts.getLastD 0 →
      ∃ r, bracketScan ts rs time = some r := by
  intro ts
  induction ts with
  | nil => intro rs _ h2; simp at h2
  | cons t0 ts' ih =>
    intro rs hlen h2 hhead hlast
    match ts', rs with
    | [], _ => simp at h2
    | t1 :: ts'', [] => simp at hlen
    | t1 :: ts'', r0 :: rs' =>
      match rs' with
      | [] => simp at hlen
      | r1 :: rs'' =>
        by_cases hb : time ≤ t1
        · refine ⟨r0 + (r1 - r0) * (time - t0) / (t1 - t0), ?_⟩
          simp only [bracketScan]
          rw [if_pos ⟨by simpa using hhead, hb⟩]
        · have h1 : t1 ≤ time := le_of_not_le hb
          have hl : time ≤ (t1 :: ts'').getLastD 0 := by
            simpa [List.getLastD_cons] using hlast
          rcases ts'' with _ | ⟨t2, ts3⟩
          · exact absurd (by simpa using hl) hb
          · have := ih (r1 :: rs'') (by simpa using hlen) (by simp)
              (by simpa using h1) hl
            rcases this with ⟨r, hr⟩
            refine ⟨r, ?_⟩
            simp only [bracketScan]
            rw [if_neg (by exact fun hc => hb hc.2)]
            exact hr

/-- Totality of the curve lookup: any non-empty curve with equal-length
arrays answers every query with `Ok` (the boundary clamps cover the two
sides, the scan covers the interior). -/
theorem interpolate_rate_ok (curve : InterestRateCurve K) (time : K)
    (h1 : curve.times ≠ []) (h2 : curve.times.length = curve.rates.length) :
    ∃ r, interpolate_rate curve time = .ok r := by
  have hre : curve.rates ≠ [] := by
    intro h
    rw [h] at h2
    simp only [List.length_nil, List.length_eq_zero] at h2
    exact h1 h2
  have hguard : ¬(curve.times.isEmpty ∨ curve.rates.isEmpty ∨
      curve.times.length ≠ curve.rates.length) := by
    simp [List.isEmpty_iff, h1, hre, h2]
  unfold interpolate_rate
  rw [if_neg hguard]
  by_cases hh : time ≤ curve.times.headD 0
  · rw [if_pos hh]
    exact ⟨_, rfl⟩
  · rw [if_neg hh]
    by_cases hl : curve.times.getLastD 0 ≤ time
    · rw [if_pos hl]
      exact ⟨_, rfl⟩
    · rw [if_neg hl]
      have hlen2 : 2 ≤ curve.times.length := by
        obtain ⟨t, ts, hts⟩ := List.exists_cons_of_ne_nil h1
        rcases ts with _ | ⟨t2, ts'⟩
        · rw [hts] at hh hl
          simp only [List.headD_cons, List.getLastD_cons, List.getLastD_nil] at hh hl
          exact absurd (le_of_not_le hh) hl
        · rw [hts]
          simp
      obtain ⟨r, hr⟩ := bracketScan_isSome time curve.times curve.rates h2 hlen2
        (le_of_not_le hh) (le_of_lt (lt_of_not_le hl))
      exact ⟨r, by rw [hr]⟩

/-- Strictly increasing knot lists are strictly monotone in `getD`. -/
theorem chain'_lt_getD (l : List K) (h : l.Chain' (· < ·)) {i j : ℕ}
    (hij : i < j) (hj : j < l.length) : l.getD i 0 < l.getD j 0 := by
  have hp : l.Pairwise (· < ·) := List.chain'_iff_pairwise.mp h
  have hi : i < l.length := lt_trans hij hj
  have := List.pairwise_iff_get.mp hp ⟨i, hi⟩ ⟨j, hj⟩ hij
  rw [List.getD_eq_getElem l 0 hi, List.getD_eq_getElem l 0 hj]
  simpa using this

/-- `getLastD` of a non-empty list is its entry at index `length - 1`. -/
theorem getLastD_eq_getD {α : Type} (l : List α) (d : α) (h : l ≠ []) :
    l.getLastD d = l.getD (l.length - 1) d := by
  induction l generalizing d with
  | nil => exact absurd rfl h
  | cons a l ih =>
    rcases l with _ | ⟨b, l'⟩
    · rfl
    · have hne : (b :: l') ≠ [] := by simp
      have hlt : (b :: l').length - 1 < (b :: l').length := by simp
      have : (b :: l').getD ((b :: l').length - 1) a =
          (b :: l').getD ((b :: l').length - 1) d := by
        rw [List.getD_eq_getElem _ a hlt, List.getD_eq_getElem _ d hlt]
      calc (a :: b :: l').getLastD d = (b :: l').getLastD a := by
              rw [List.getLastD_cons]
        _ = (b :: l').getD ((b :: l').length - 1) a := ih a hne
        _ = (a :: b :: l').getD ((a :: b :: l').length - 1) d := by
              rw [this]
              simp [List.getD_cons_succ]

/-- First-match semantics of the scan loop: with strictly increasing knot
times, the scan lands exactly on the interval strictly containing the query
and returns the linear interpolation there. -/
theorem bracketScan_interior (time : K) :
    ∀ (ts rs : List K) (i : ℕ), ts.length = rs.length →
      ts.Chain' (· < ·) → i + 1 < ts.length →
      ts.getD i 0 < time → time < ts.getD (i + 1) 0 →
      bracketScan ts rs time = some (rs.getD i 0 +
        (rs.getD (i + 1) 0 - rs.getD i 0) * (time - ts.getD i 0) /
          (ts.getD (i + 1) 0 - ts.getD i 0)) := by
  intro ts
  induction ts with
  | nil => intro rs i _ _ hi; simp at hi
  | cons t0 ts' ih =>
    intro rs i hlen hch hi hlo hhi
    match ts', rs with
    | [], _ => simp at hi
    | t1 :: ts'', [] => simp at hlen
    | t1 :: ts'', r0 :: rs' =>
      match rs' with
      | [] => simp at hlen
      | r1 :: rs'' =>
        cases i with
        | zero =>
          simp only [List.getD_cons_zero, List.getD_cons_succ] at hlo hhi
          simp only [bracketScan, List.getD_cons_zero, List.getD_cons_succ]
          rw [if_pos ⟨le_of_lt hlo, le_of_lt hhi⟩]
        | succ k =>
          have ht1 : t1 < time := by
            have h1le : (t0 :: t1 :: ts'').getD 1 0 ≤
                (t0 :: t1 :: ts'').getD (k + 1) 0 := by
              rcases Nat.lt_or_ge 1 (k + 1) with h | h
              · exact le_of_lt (chain'_lt_getD _ hch h (by omega))
              · have : k = 0 := by omega
                subst this
                exact le_refl _
            simpa using lt_of_le_of_lt h1le hlo
          simp only [bracketScan]
          rw [if_neg (fun hc => absurd hc.2 (not_le.mpr ht1))]
          have := ih (r1 :: rs'') k (by simpa using hlen) hch.tail
            (by simpa using hi) (by simpa using hlo) (by simpa using hhi)
          simpa using this

/-- `headD` of a non-empty list is its entry at index `0`. -/
theorem headD_eq_getD {α : Type} (l : List α) (d : α) (h : l ≠ []) :
    l.headD d = l.getD 0 d := by
  rcases l with _ | ⟨a, l⟩
  · exact absurd rfl h
  · rfl

/-- Left boundary clamp of the curve lookup. -/
theorem interpolate_rate_head (curve : InterestRateCurve K) (time : K)
    (h1 : curve.times ≠ []) (h2 : curve.times.length = curve.rates.length)
    (hh : time ≤ curve.times.headD 0) :
    interpolate_rate curve time = .ok (curve.rates.headD 0) := by
  unfold interpolate_rate
  rw [if_neg (interpolate_guard_neg curve h1 h2), if_pos hh]

/-- Right boundary clamp of the curve lookup (needs strictly increasing
times so that the left clamp cannot shadow it with a different rate). -/
theorem interpolate_rate_last (curve : InterestRateCurve K) (time : K)
    (hwf : wellFormedCurve curve) (hl : curve.times.getLastD 0 ≤ time) :
    interpolate_rate curve time = .ok (curve.rates.getLastD 0) := by
  obtain ⟨h1, h2, hch⟩ := hwf
  by_cases hh : time ≤ curve.times.headD 0
  · have hlen1 : curve.times.length = 1 := by
      have hpos : 0 < curve.times.length := List.length_pos.mpr h1
      by_contra hne
      have h2le : 2 ≤ curve.times.length := by omega
      have : curve.times.getD 0 0 < curve.times.getD (curve.times.length - 1) 0 :=
        chain'_lt_getD _ hch (by omega) (by omega)
      rw [← headD_eq_getD _ _ h1, ← getLastD_eq_getD _ _ h1] at this
      exact absurd (le_trans hl hh) (not_le.mpr this)
    have hrlen1 : curve.rates.length = 1 := by omega
    obtain ⟨r, hr⟩ := List.length_eq_one.mp hrlen1
    rw [interpolate_rate_head curve time h1 h2 hh, hr]
    rfl
  · unfold interpolate_rate
    rw [if_neg (interpolate_guard_neg curve h1 h2), if_neg hh, if_pos hl]

/-- Interior query: the lookup returns the exact linear interpolation on
the (unique) strictly bracketing interval. -/
theorem interpolate_rate_interior (curve : InterestRateCurve K) (time : K)
    (i : ℕ) (hwf : wellFormedCurve curve) (hi : i + 1 < curve.times.length)
    (hlo : curve.times.getD i 0 < time)
    (hhi : time < curve.times.getD (i + 1) 0) :
    interpolate_rate curve time = .ok (curve.rates.getD i 0 +
      (curve.rates.getD (i + 1) 0 - curve.rates.getD i 0) *
        (time - curve.times.getD i 0) /
          (curve.times.getD (i + 1) 0 - curve.times.getD i 0)) := by
  obtain ⟨h1, h2, hch⟩ := hwf
  have hh : ¬ time ≤ curve.times.headD 0 := by
    rw [headD_eq_getD _ _ h1]
    have h0i : curve.times.getD 0 0 ≤ curve.times.getD i 0 := by
      rcases Nat.eq_zero_or_pos i with h | h
      · rw [h]
      · exact le_of_lt (chain'_lt_getD _ hch h (by omega))
    exact not_le.mpr (lt_of_le_of_lt h0i hlo)
  have hl : ¬ curve.times.getLastD 0 ≤ time := by
    rw [getLastD_eq_getD _ _ h1]
    have hlast : curve.times.getD (i + 1) 0 ≤
        curve.times.getD (curve.times.length - 1) 0 := by
      rcases Nat.lt_or_ge (i + 1) (curve.times.length - 1) with h | h
      · exact le_of_lt (chain'_lt_getD _ hch h (by omega))
      · have : i + 1 = curve.times.length - 1 := by omega
        rw [this]
    exact not_le.mpr (lt_of_lt_of_le hhi hlast)
  unfold interpolate_rate
  rw [if_neg (interpolate_guard_neg curve h1 h2), if_neg hh, if_neg hl,
    bracketScan_interior time curve.times curve.rates i h2 hch hi hlo hhi]

end InterpolationLemmas

/-- Mirrors `regression/mod.rs`: `RegressionMethod`. -/
inductive RegressionMethod where
  | LeastSquaresMonteCarlo : RegressionMethod
  | RandomForest : RegressionMethod

/-- Mirrors `regression/mod.rs`: one training sample for the continuation
value regression. -/
structure RegressionDataPoint where
  time : ℝ
  asset_price : ℝ
  continuation_value : ℝ

/-- Mirrors `regression/mod.rs`: the argument of `predict`. -/
structure RegressionInput where
  time : ℝ
  asset_price : ℝ

/-- A fitted regression model, i.e. the `Box<dyn RegressionModel>` returned
by `fit`: an opaque total prediction function. -/
def FittedModel : Type := RegressionInput → ℝ

/-- The `Regression` capability (`fit` may fail with a typed error); the
two concrete implementations delegate the numerical solve to external
crates (`ndarray-linalg`, `smartcore`), so the engine is verified for an
arbitrary member of this interface, exactly as the Rust engine holds an
`Rc<dyn Regression>`. -/
def RegressionEngine : Type := List RegressionDataPoint → Except OptionPricingError FittedModel

/-- Mirrors the `HestonModel` struct of `models/heston.rs`. -/
structure HestonModel where
  option_type : OptionType
  spot_price : ℝ
  strike_price : ℝ
  time_to_expiry : ℝ
  initial_variance : ℝ
  risk_free_rate_curve : InterestRateCurve ℝ
  kappa : ℝ
  theta : ℝ
  sigma : ℝ
  rho : ℝ
  is_american : Bool
  regression_method : RegressionMethod
  num_paths : ℕ
  num_steps : ℕ

/-- The payoff / immediate-exercise expression that `heston.rs` inlines at
its four use sites (lines 77-78/83-84, 105-108, 121-124, 151-154):
`(spot - strike).max(0.0)` for a call, `(strike - spot).max(0.0)` for a
put. -/
def immediateExercise (optionType : OptionType) (strike spot : ℝ) : ℝ :=
  match optionType with
  | .Call => max (spot - strike) 0
  | .Put => max (strike - spot) 0

/-- One step of the path simulation loop (`heston.rs` lines 46-66), given
the two standard-normal draws of that step: correlate the draws, update the
variance with the zero floor, look up the rate at the step's end time, and
apply the log-Euler spot update. -/
noncomputable def hestonStep (cfg : HestonModel) (dt sqrt_dt : ℝ) (step : ℕ)
    (z1 z2 spot variance : ℝ) : Except OptionPricingError (ℝ × ℝ) := do
  let w1 := z1
  let w2 := cfg.rho * z1 + Real.sqrt (1 - cfg.rho ^ 2) * z2
  let variance' := max (variance + cfg.kappa * (cfg.theta - variance) * dt +
    cfg.sigma * Real.sqrt variance * w2 * sqrt_dt) 0
  let time := ((step : ℝ) + 1) * dt
  let rate ← interpolate_rate cfg.risk_free_rate_curve time
  let spot' := spot * Real.exp ((rate - 0.5 * variance') * dt +
    Real.sqrt variance' * w1 * sqrt_dt)
  pure (spot', variance')

/-- The (spot, variance) state of one simulated path after `n` steps;
`draw k` supplies the pair `(z1, z2)` of step `k`. -/
noncomputable def simState (cfg : HestonModel) (dt sqrt_dt : ℝ)
    (draw : ℕ → ℝ × ℝ) : ℕ → Except OptionPricingError (ℝ × ℝ)
  | 0 => .ok (cfg.spot_price, cfg.initial_variance)
  | n + 1 => do
    let sv ← simState cfg dt sqrt_dt draw n
    hestonStep cfg dt sqrt_dt n (draw n).1 (draw n).2 sv.1 sv.2

/-- The per-path simulation loop (`heston.rs` lines 39-67) carried out for
`n` steps: state `(spot, variance, path)` with `path` the accumulated
`(time, spot)` samples starting from `(0, spot_price)`. -/
noncomputable def simulatePathAux (cfg : HestonModel) (dt sqrt_dt : ℝ)
    (draw : ℕ → ℝ × ℝ) : ℕ → Except OptionPricingError (ℝ × ℝ × List (ℝ × ℝ))
  | 0 => .ok (cfg.spot_price, cfg.initial_variance, [(0, cfg.spot_price)])
  | n + 1 => do
    let svp ← simulatePathAux cfg dt sqrt_dt draw n
    let sv ← hestonStep cfg dt sqrt_dt n (draw n).1 (draw n).2 svp.1 svp.2.1
    .ok (sv.1, sv.2, svp.2.2 ++ [(((n : ℝ) + 1) * dt, sv.1)])

/-- One full simulated path: the `(time, spot)` list of length
`num_steps + 1`. -/
noncomputable def simulatePath (cfg : HestonModel) (dt sqrt_dt : ℝ)
    (draw : ℕ → ℝ × ℝ) : Except OptionPricingError (List (ℝ × ℝ)) := do
  let svp ← simulatePathAux cfg dt sqrt_dt draw cfg.num_steps
  .ok svp.2.2

/-- The outer path loop (`heston.rs` lines 39-68): simulate `n` paths,
path `i` using the draw stream `draws i`. -/
noncomputable def simulateAll (cfg : HestonModel) (dt sqrt_dt : ℝ)
    (draws : ℕ → ℕ → ℝ × ℝ) : ℕ → Except OptionPricingError (List (List (ℝ × ℝ)))
  | 0 => .ok []
  | i + 1 => do
    let acc ← simulateAll cfg dt sqrt_dt draws i
    let p ← simulatePath cfg dt sqrt_dt (draws i)
    .ok (acc ++ [p])

/-- The regression-data collection loop of one backward-induction step
(`heston.rs` lines 116-137): walk the paths in order; for each in-the-money
path look up the rate and record `(time, spot, V[i]·exp(−rate·dt))`. -/
noncomputable def collectData (cfg : HestonModel) (dt time : ℝ)
    (spotsAt : ℕ → ℝ) (V : ℕ → ℝ) : ℕ → Except OptionPricingError (List RegressionDataPoint)
  | 0 => .ok []
  | i + 1 => do
    let acc ← collectData cfg dt time spotsAt V i
    let spot := spotsAt i
    let iev := immediateExercise cfg.option_type cfg.strike_price spot
    if 0 < iev then do
      let rate ← interpolate_rate cfg.risk_free_rate_curve time
      .ok (acc ++ [⟨time, spot, V i * Real.exp (-rate * dt)⟩])
    else
      .ok acc

/-- The per-path value update of one backward-induction step (`heston.rs`
lines 148-178): always compute the one-step discounted value; in the money,
exercise exactly when the immediate value is at least the predicted
continuation; out of the money, take the discounted value. -/
noncomputable def updateValues (cfg : HestonModel) (dt time : ℝ)
    (spotsAt : ℕ → ℝ) (predict : FittedModel) (V : ℕ → ℝ) (i : ℕ) :
    Except OptionPricingError ℝ := do
  let spot := spotsAt i
  let iev := immediateExercise cfg.option_type cfg.strike_price spot
  let rate ← interpolate_rate cfg.risk_free_rate_curve time
  let discounted := V i * Real.exp (-rate * dt)
  if 0 < iev then
    if predict ⟨time, spot⟩ ≤ iev then .ok iev else .ok discounted
  else
    .ok discounted

/-- The update loop over all paths (`heston.rs` lines 148-179), producing
the new option-value vector in path order. -/
noncomputable def updateAllAux (cfg : HestonModel) (dt time : ℝ)
    (spotsAt : ℕ → ℝ) (predict : FittedModel) (V : ℕ → ℝ) :
    ℕ → Except OptionPricingError (List ℝ)
  | 0 => .ok []
  | n + 1 => do
    let acc ← updateAllAux cfg dt time spotsAt predict V n
    let v ← updateValues cfg dt time spotsAt predict V n
    .ok (acc ++ [v])

/-- One backward-induction step (`heston.rs` lines 112-180, loop body at
exercise-date index `step`): collect regression data from the in-the-money
paths; if none, leave the value vector unchanged; otherwise fit the
regression and update every path's value. -/
noncomputable def backwardStep (cfg : HestonModel) (dt : ℝ)
    (reg : RegressionEngine) (spots : ℕ → ℕ → ℝ) (step : ℕ) (V : List ℝ) :
    Except OptionPricingError (List ℝ) := do
  let time := (step : ℝ) * dt
  let data ← collectData cfg dt time (fun i => spots i step)
    (fun i => V.getD i 0) cfg.num_paths
  if data.isEmpty then
    .ok V
  else do
    let predict ← reg data
    updateAllAux cfg dt time (fun i => spots i step) predict
      (fun i => V.getD i 0) cfg.num_paths

/-- The backward-induction loop `for step in (1..num_steps).rev()`:
`inductionSteps s` processes the exercise dates `s, s-1, ..., 1`. -/
noncomputable def inductionSteps (cfg : HestonModel) (dt : ℝ)
    (reg : RegressionEngine) (spots : ℕ → ℕ → ℝ) :
    ℕ → List ℝ → Except OptionPricingError (List ℝ)
  | 0, V => .ok V
  | s + 1, V => do
    let V' ← backwardStep cfg dt reg spots (s + 1) V
    inductionSteps cfg dt reg spots s V'

/-- The final aggregation loop (`heston.rs` lines 183-187): accumulate
`V[i] · exp(−rate(0)·dt)` over the paths, looking the rate up at time `0`
once per path. -/
noncomputable def finalSum (cfg : HestonModel) (dt : ℝ) (V : ℕ → ℝ) :
    ℕ → Except OptionPricingError ℝ
  | 0 => .ok 0
  | i + 1 => do
    let acc ← finalSum cfg dt V i
    let rate ← interpolate_rate cfg.risk_free_rate_curve 0
    .ok (acc + V i * Real.exp (-rate * dt))

/-- The pricing stage of `HestonModel::price` once the paths exist
(`heston.rs` lines 70-190), with `spots i n` the spot of path `i` at step
`n`: the European branch averages discounted terminal payoffs; the American
branch initializes the terminal payoffs, runs backward induction from step
`num_steps - 1` down to step `1`, and averages the once-more-discounted
values. -/
noncomputable def hestonPriceGivenPaths (cfg : HestonModel)
    (reg : RegressionEngine) (spots : ℕ → ℕ → ℝ) : Except OptionPricingError ℝ :=
  let dt := cfg.time_to_expiry / (cfg.num_steps : ℝ)
  if cfg.is_american then do
    let V0 := (List.range cfg.num_paths).map
      (fun i => immediateExercise cfg.option_type cfg.strike_price (spots i cfg.num_steps))
    let V ← inductionSteps cfg dt reg spots (cfg.num_steps - 1) V0
    let s ← finalSum cfg dt (fun i => V.getD i 0) cfg.num_paths
    .ok (s / (cfg.num_paths : ℝ))
  else do
    let payoffs := (List.range cfg.num_paths).map
      (fun i => immediateExercise cfg.option_type cfg.strike_price (spots i cfg.num_steps))
    let average_payoff := payoffs.sum / (cfg.num_paths : ℝ)
    let rate ← interpolate_rate cfg.risk_free_rate_curve cfg.time_to_expiry
    .ok (average_payoff * Real.exp (-rate * cfg.time_to_expiry))

/-- Mirrors `HestonModel::price` (`heston.rs` lines 31-191): simulate all
paths with the given draw streams, then price; `reg` is the regression
strategy selected at lines 96-99. -/
noncomputable def HestonModel.price (cfg : HestonModel)
    (reg : RegressionEngine) (draws : ℕ → ℕ → ℝ × ℝ) :
    Except OptionPricingError ℝ := do
  let dt := cfg.time_to_expiry / (cfg.num_steps : ℝ)
  let sqrt_dt := Real.sqrt dt
  let paths ← simulateAll cfg dt sqrt_dt draws cfg.num_paths
  hestonPriceGivenPaths cfg reg (fun i n => ((paths.getD i []).getD n (0, 0)).2)

/-- Mirrors the `BinomialModel` struct of `models/binomial.rs`. -/
structure BinomialModel where
  option_type : OptionType
  spot_price : ℝ
  strike_price : ℝ
  time_to_expiry : ℝ
  volatility : ℝ
  risk_free_rate : ℝ
  steps : ℕ
  is_american : Bool

/-- One iteration of the binomial backward loop (`binomial.rs` lines
44-58), as a transform on the pair (option values, asset prices) indexed by
node: each value becomes the discounted expectation of its two successors,
floored at the immediate exercise value in the American case, and each
asset price is pulled one step down. -/
noncomputable def binomialStep (m : BinomialModel) (discount p up down : ℝ)
    (va : (ℕ → ℝ) × (ℕ → ℝ)) : (ℕ → ℝ) × (ℕ → ℝ) :=
  (fun i =>
    let continuation := discount * (p * va.1 i + (1 - p) * va.1 (i + 1))
    if m.is_american then
      max continuation (immediateExercise m.option_type m.strike_price (va.2 i))
    else
      continuation,
   fun i => va.2 i * down / up)

/-- The binomial backward loop iterated `n` times. -/
noncomputable def binomialLoop (m : BinomialModel) (discount p up down : ℝ) :
    ℕ → ((ℕ → ℝ) × (ℕ → ℝ)) → (ℕ → ℝ) × (ℕ → ℝ)
  | 0, va => va
  | n + 1, va => binomialLoop m discount p up down n (binomialStep m discount p up down va)

/-- Mirrors `BinomialModel::price` (`binomial.rs` lines 17-61): reject a
zero step count with `InvalidInput`, otherwise price on the recombining
tree by backward induction. -/
noncomputable def BinomialModel.price (m : BinomialModel) :
    Except OptionPricingError ℝ :=
  if m.steps = 0 then
    .error (.InvalidInput "Number of steps must be greater than zero.")
  else
    let delta_t := m.time_to_expiry / (m.steps : ℝ)
    let up := Real.exp (m.volatility * Real.sqrt delta_t)
    let down := 1 / up
    let discount := Real.exp (-m.risk_free_rate * delta_t)
    let p := (discount⁻¹ - down) / (up - down)
    let asset0 : ℕ → ℝ := fun i => m.spot_price * up ^ (m.steps - i) * down ^ i
    let value0 : ℕ → ℝ := fun i =>
      immediateExercise m.option_type m.strike_price (asset0 i)
    .ok ((binomialLoop m discount p up down m.steps (value0, asset0)).1 0)

/-- Mirrors `LSMModel` (`regression/lsm.rs`): the fitted polynomial
coefficients. -/
structure LSMModel where
  coefficients : List ℝ

/-- Mirrors `LSMModel::predict` (`regression/lsm.rs` lines 40-49): the
accumulation loop `value += coeff * s.powi(i)` over the enumerated
coefficients. -/
noncomputable def LSMModel.predict (m : LSMModel) (input : RegressionInput) : ℝ :=
  m.coefficients.enum.foldl
    (fun value ic => value + ic.2 * input.asset_price ^ ic.1) 0

/-- Mirrors `RandomForestModel` (`regression/random_forest.rs`). The inner
`smartcore` regressor is an external crate, so it is embedded as an opaque
fallible prediction on the single feature (the asset price): `none` stands
for `Err(_)` of `RandomForestRegressor::predict`. -/
structure RandomForestModel where
  model : ℝ → Option ℝ

/-- Mirrors `RandomForestModel::predict` (`regression/random_forest.rs`
lines 36-45): `if let Ok(predictions) = ... { predictions[0] } else { 0.0 }`. -/
noncomputable def RandomForestModel.predict (m : RandomForestModel)
    (input : RegressionInput) : ℝ :=
  match m.model input.asset_price with
  | some prediction => prediction
  | none => 0

@[simp]
theorem exceptOk_bind {ε α β : Type} (a : α) (f : α → Except ε β) :
    (Except.ok a : Except ε α) >>= f = f a := rfl

@[simp]
theorem exceptError_bind {ε α β : Type} (e : ε) (f : α → Except ε β) :
    (Except.error e : Except ε α) >>= f = .error e := rfl

@[simp]
theorem exceptPure {ε α : Type} (a : α) : (pure a : Except ε α) = .ok a := rfl

/-- Inversion of a successful monadic bind on `Except`. -/
theorem bind_ok_elim {ε α β : Type} {x : Except ε α} {f : α → Except ε β}
    {b : β} (h : x >>= f = .ok b) : ∃ a, x = .ok a ∧ f a = .ok b := by
  cases x with
  | error e => simp at h
  | ok a => exact ⟨a, rfl, h⟩

/-- C4: after every simulation step the variance component of the path
state is non-negative — the update applies the zero floor
`max (... ) 0`, so the variance stored and used after any step is `≥ 0`. -/
theorem heston_variance_floor (cfg : HestonModel) (dt sqrt_dt : ℝ)
    (draw : ℕ → ℝ × ℝ) (n : ℕ) (s v : ℝ)
    (h : simState cfg dt sqrt_dt draw (n + 1) = .ok (s, v)) : 0 ≤ v := by
  rw [simState] at h
  obtain ⟨sv, _, hstep⟩ := bind_ok_elim h
  simp only [hestonStep] at hstep
  obtain ⟨rate, _, hpure⟩ := bind_ok_elim hstep
  simp only [exceptPure, Except.ok.injEq, Prod.mk.injEq] at hpure
  rw [← hpure.2]
  exact le_max_right _ 0

/-- Witness for C4 at a concrete one-step simulation with all parameters
zero except the spot. -/
theorem heston_variance_floor_witness : (0 : ℝ) ≤ 0 := by
  refine heston_variance_floor
    { option_type := .Call, spot_price := 1, strike_price := 1,
      time_to_expiry := 1, initial_variance := 0,
      risk_free_rate_curve := ⟨[0], [0]⟩, kappa := 0, theta := 0, sigma := 0,
      rho := 0, is_american := true,
      regression_method := .LeastSquaresMonteCarlo, num_paths := 1,
      num_steps := 1 }
    1 1 (fun _ => (0, 0)) 0 1 0 ?_
  rw [simState, simState]
  simp only [exceptOk_bind, hestonStep]
  rw [interpolate_rate_singleton]
  norm_num [Real.sqrt_zero, Real.exp_zero, max_self]

/-- A regression engine that always fails; used as the "arbitrary"
strategy in instances that must not invoke the fit at all. -/
def regNone : RegressionEngine := fun _ => .error (.RegressionError "unused")

/-- The regression-data collection returns an empty list when no path is
in the money (and performs no rate lookup at all). -/
theorem collectData_no_itm (cfg : HestonModel) (dt time : ℝ)
    (spotsAt : ℕ → ℝ) (V : ℕ → ℝ) (n : ℕ)
    (h : ∀ i, i < n → immediateExercise cfg.option_type cfg.strike_price (spotsAt i) ≤ 0) :
    collectData cfg dt time spotsAt V n = .ok [] := by
  induction n with
  | zero => rw [collectData]
  | succ k ih =>
    rw [collectData, ih (fun i hi => h i (by omega))]
    simp only [exceptOk_bind]
    rw [if_neg (not_lt.mpr (h k (by omega)))]

/-- C7: at a backward-induction step where every path's immediate exercise
value is `≤ 0`, the step returns the value vector `V` unchanged — no
regression is fit (the step succeeds even under an always-failing
regression engine) and no discount is applied. -/
theorem backwardStep_no_itm (cfg : HestonModel) (dt : ℝ)
    (reg : RegressionEngine) (spots : ℕ → ℕ → ℝ) (step : ℕ) (V : List ℝ)
    (h : ∀ i, i < cfg.num_paths →
      immediateExercise cfg.option_type cfg.strike_price (spots i step) ≤ 0) :
    backwardStep cfg dt reg spots step V = .ok V := by
  simp only [backwardStep]
  rw [collectData_no_itm cfg dt ((step : ℝ) * dt) (fun i => spots i step)
    (fun i => V.getD i 0) cfg.num_paths h]
  simp

/-- Witness for C7: one path, a put with zero strike (so never in the
money), under the always-failing regression engine. -/
theorem backwardStep_no_itm_witness :
    backwardStep
      { option_type := .Put, spot_price := 5, strike_price := 0,
        time_to_expiry := 1, initial_variance := 0,
        risk_free_rate_curve := ⟨[0], [1]⟩, kappa := 0, theta := 0,
        sigma := 0, rho := 0, is_american := true,
        regression_method := .LeastSquaresMonteCarlo, num_paths := 1,
        num_steps := 2 }
      (1 / 2) regNone (fun _ _ => 5) 1 [3] = .ok [3] := by
  refine backwardStep_no_itm _ _ _ _ _ _ ?_
  intro i _
  norm_num [immediateExercise]

/-- The per-path optimal-stopping update rule as the specification words it
(§4.3 step 6): discount the held value one step; in the money, exercise
exactly on `immediate ≥ predicted` (ties exercise), otherwise continue. -/
noncomputable def lsPointUpdate (cfg : HestonModel) (dt time rate : ℝ)
    (predict : FittedModel) (spot oldV : ℝ) : ℝ :=
  let iev := immediateExercise cfg.option_type cfg.strike_price spot
  let discounted := oldV * Real.exp (-rate * dt)
  if 0 < iev then
    (if predict ⟨time, spot⟩ ≤ iev then iev else discounted)
  else
    discounted

/-- The per-path update of `heston.rs` lines 148-178 computes exactly the
spec's step-6 rule, given that the rate lookup succeeds. -/
theorem updateValues_ok (cfg : HestonModel) (dt time : ℝ) (spotsAt : ℕ → ℝ)
    (predict : FittedModel) (V : ℕ → ℝ) (i : ℕ) (rate : ℝ)
    (hr : interpolate_rate cfg.risk_free_rate_curve time = .ok rate) :
    updateValues cfg dt time spotsAt predict V i =
      .ok (lsPointUpdate cfg dt time rate predict (spotsAt i) (V i)) := by
  simp only [updateValues, lsPointUpdate]
  rw [hr]
  simp only [exceptOk_bind]
  split_ifs <;> rfl

/-- The update loop produces, in order, the step-6 value of every path. -/
theorem updateAllAux_ok (cfg : HestonModel) (dt time : ℝ) (spotsAt : ℕ → ℝ)
    (predict : FittedModel) (V : ℕ → ℝ) (rate : ℝ)
    (hr : interpolate_rate cfg.risk_free_rate_curve time = .ok rate) :
    ∀ n, ∃ L, updateAllAux cfg dt time spotsAt predict V n = .ok L ∧
      L.length = n ∧ ∀ i, i < n →
        L.getD i 0 = lsPointUpdate cfg dt time rate predict (spotsAt i) (V i) := by
  intro n
  induction n with
  | zero =>
    refine ⟨[], by rw [updateAllAux], rfl, ?_⟩
    intro i hi
    omega
  | succ k ih =>
    obtain ⟨L, hL, hlen, hent⟩ := ih
    refine ⟨L ++ [lsPointUpdate cfg dt time rate predict (spotsAt k) (V k)],
      ?_, by simp [hlen], ?_⟩
    · rw [updateAllAux, hL]
      simp only [exceptOk_bind]
      rw [updateValues_ok cfg dt time spotsAt predict V k rate hr]
      simp only [exceptOk_bind]
    · intro i hi
      rcases Nat.lt_or_ge i k with h | h
      · rw [List.getD_append _ _ _ _ (by omega)]
        exact hent i h
      · have hik : i = k := by omega
        subst hik
        rw [List.getD_append_right _ _ _ _ (by omega)]
        simp [hlen]

/-- C1 (amended): at every backward-induction step whose in-the-money set
is non-empty (so the regression is fit), the update sets, for every path,
`V[i]` to the immediate exercise value exactly when it is `≥` the predicted
continuation (ties exercising), and to the one-step discounted value
`V[i]·exp(−rate(t)·dt)` otherwise — in particular out-of-the-money paths
get the discounted value.  (The un-amended claim also asserted the
discounting at steps with an empty in-the-money set, where the code leaves
`V` unchanged.) -/
theorem heston_backward_update (cfg : HestonModel) (dt : ℝ)
    (reg : RegressionEngine) (spots : ℕ → ℕ → ℝ) (step : ℕ) (V : List ℝ)
    (rate : ℝ) (data : List RegressionDataPoint) (predict : FittedModel)
    (hr : interpolate_rate cfg.risk_free_rate_curve ((step : ℝ) * dt) = .ok rate)
    (hdata : collectData cfg dt ((step : ℝ) * dt) (fun i => spots i step)
      (fun i => V.getD i 0) cfg.num_paths = .ok data)
    (hne : data ≠ [])
    (hfit : reg data = .ok predict) :
    ∃ V', backwardStep cfg dt reg spots step V = .ok V' ∧
      V'.length = cfg.num_paths ∧ ∀ i, i < cfg.num_paths →
        V'.getD i 0 = lsPointUpdate cfg dt ((step : ℝ) * dt) rate predict
          (spots i step) (V.getD i 0) := by
  obtain ⟨L, hL, hlen, hent⟩ := updateAllAux_ok cfg dt ((step : ℝ) * dt)
    (fun i => spots i step) predict (fun i => V.getD i 0) rate hr cfg.num_paths
  refine ⟨L, ?_, hlen, hent⟩
  simp only [backwardStep]
  rw [hdata]
  simp only [exceptOk_bind]
  rw [if_neg (by simpa [List.isEmpty_iff] using hne), hfit]
  simp only [exceptOk_bind]
  exact hL

/-- A regression engine whose fit always succeeds with the constant-zero
prediction. -/
def regZero : RegressionEngine := fun _ => .ok (fun _ => 0)

/-- Witness for C1 (amended) at a concrete in-the-money step: one path at
spot 2 against strike 1, flat zero rate curve, `dt = 1`, step 1. -/
theorem heston_backward_update_witness :
    ∃ V', backwardStep
        { option_type := .Call, spot_price := 2, strike_price := 1,
          time_to_expiry := 2, initial_variance := 0,
          risk_free_rate_curve := ⟨[0], [0]⟩, kappa := 0, theta := 0,
          sigma := 0, rho := 0, is_american := true,
          regression_method := .LeastSquaresMonteCarlo, num_paths := 1,
          num_steps := 2 }
        1 regZero (fun _ _ => 2) 1 [1] = .ok V' ∧
      V'.length = 1 ∧ ∀ i, i < 1 →
        V'.getD i 0 = lsPointUpdate
          { option_type := .Call, spot_price := 2, strike_price := 1,
            time_to_expiry := 2, initial_variance := 0,
            risk_free_rate_curve := ⟨[0], [0]⟩, kappa := 0, theta := 0,
            sigma := 0, rho := 0, is_american := true,
            regression_method := .LeastSquaresMonteCarlo, num_paths := 1,
            num_steps := 2 }
          1 (((1 : ℕ) : ℝ) * 1) 0 (fun _ => 0) 2 ([(1 : ℝ)].getD i 0) := by
  refine heston_backward_update _ 1 regZero (fun _ _ => 2) 1 [1] 0
    [⟨((1 : ℕ) : ℝ) * 1, 2, 1 * Real.exp (-0 * 1)⟩] (fun _ => 0)
    (interpolate_rate_singleton 0 0 _) ?_ (by simp) rfl
  rw [collectData, collectData]
  simp only [exceptOk_bind]
  rw [if_pos (by norm_num [immediateExercise])]
  rw [interpolate_rate_singleton]
  simp

/-- Counterexample to C1 as stated: at a step where no path is in the
money, the code leaves `V` unchanged (here `V[0]` stays `1`), whereas the
claim's unconditional out-of-the-money rule demands the one-step discounted
value `1·exp(−rate·dt) = exp(−1/2) ≠ 1` (curve rate 1, `dt = 1/2`). -/
theorem heston_backward_update_counterexample :
    backwardStep
        { option_type := .Call, spot_price := 1, strike_price := 2,
          time_to_expiry := 1, initial_variance := 0,
          risk_free_rate_curve := ⟨[0], [1]⟩, kappa := 0, theta := 0,
          sigma := 0, rho := 0, is_american := true,
          regression_method := .LeastSquaresMonteCarlo, num_paths := 1,
          num_steps := 2 }
        (1 / 2) regNone (fun _ n => if n = 2 then 3 else 1) 1 [1] = .ok [1] ∧
      interpolate_rate (⟨[0], [1]⟩ : InterestRateCurve ℝ) (((1 : ℕ) : ℝ) * (1 / 2)) =
        .ok 1 ∧
      (1 : ℝ) ≠ 1 * Real.exp (-1 * (1 / 2)) := by
  refine ⟨?_, interpolate_rate_singleton 0 1 _, ?_⟩
  · simp only [backwardStep]
    rw [collectData_no_itm _ _ _ _ _ _ ?_]
    · simp
    · intro i _
      norm_num [immediateExercise]
  · have hlt : Real.exp (-1 * (1 / 2) : ℝ) < 1 := by
      rw [← Real.exp_zero]
      apply Real.exp_lt_exp_of_lt
      norm_num
    rw [one_mul]
    exact ne_of_gt hlt

/-- The final aggregation loop evaluates to the sum of the uniformly
once-more-discounted values, given that the rate lookup at time `0`
succeeds. -/
theorem finalSum_ok (cfg : HestonModel) (dt : ℝ) (Vf : ℕ → ℝ) (r0 : ℝ)
    (hr : interpolate_rate cfg.risk_free_rate_curve 0 = .ok r0) :
    ∀ n, finalSum cfg dt Vf n =
      .ok (∑ i in Finset.range n, Vf i * Real.exp (-r0 * dt)) := by
  intro n
  induction n with
  | zero => rw [finalSum]; simp
  | succ k ih =>
    rw [finalSum, ih]
    simp only [exceptOk_bind]
    rw [hr]
    simp only [exceptOk_bind, Finset.sum_range_succ]

/-- C2: the American Heston price is the arithmetic mean over the paths of
`V[i]·exp(−rate(0)·dt)` — one extra one-step discount at the rate
interpolated at time `0`, applied uniformly after backward induction (not a
discount compounded over all remaining steps). -/
theorem heston_final_discount (cfg : HestonModel) (reg : RegressionEngine)
    (spots : ℕ → ℕ → ℝ) (V : List ℝ) (r0 : ℝ)
    (hA : cfg.is_american = true)
    (hV : inductionSteps cfg (cfg.time_to_expiry / (cfg.num_steps : ℝ)) reg
      spots (cfg.num_steps - 1)
      ((List.range cfg.num_paths).map (fun i => immediateExercise
        cfg.option_type cfg.strike_price (spots i cfg.num_steps))) = .ok V)
    (hr : interpolate_rate cfg.risk_free_rate_curve 0 = .ok r0) :
    hestonPriceGivenPaths cfg reg spots =
      .ok ((∑ i in Finset.range cfg.num_paths, V.getD i 0 *
        Real.exp (-r0 * (cfg.time_to_expiry / (cfg.num_steps : ℝ)))) /
          (cfg.num_paths : ℝ)) := by
  simp only [hestonPriceGivenPaths]
  rw [if_pos hA, hV]
  simp only [exceptOk_bind]
  rw [finalSum_ok cfg _ _ r0 hr cfg.num_paths]
  simp only [exceptOk_bind]

/-- Concrete one-path, one-step American configuration used by witnesses:
terminal spot 3 against strike 1 under a flat zero rate curve. -/
def cfgOneStep : HestonModel :=
  { option_type := .Call, spot_price := 3, strike_price := 1,
    time_to_expiry := 1, initial_variance := 0,
    risk_free_rate_curve := ⟨[0], [0]⟩, kappa := 0, theta := 0, sigma := 0,
    rho := 0, is_american := true,
    regression_method := .LeastSquaresMonteCarlo, num_paths := 1,
    num_steps := 1 }

/-- Witness for C2 on `cfgOneStep` (backward induction is empty for a
single step, so `V` is the terminal payoff vector). -/
theorem heston_final_discount_witness :
    hestonPriceGivenPaths cfgOneStep regNone (fun _ _ => 3) =
      .ok ((∑ i in Finset.range cfgOneStep.num_paths,
        ((List.range cfgOneStep.num_paths).map (fun _ => immediateExercise
          cfgOneStep.option_type cfgOneStep.strike_price 3)).getD i 0 *
            Real.exp (-0 * (cfgOneStep.time_to_expiry /
              (cfgOneStep.num_steps : ℝ)))) / (cfgOneStep.num_paths : ℝ)) := by
  refine heston_final_discount cfgOneStep regNone (fun _ _ => 3) _ 0 rfl ?_
    (interpolate_rate_singleton 0 0 0)
  norm_num [cfgOneStep, inductionSteps]

/-- Payoffs are maxima with `0`, hence non-negative. -/
theorem immediateExercise_nonneg (optionType : OptionType) (strike spot : ℝ) :
    0 ≤ immediateExercise optionType strike spot := by
  cases optionType <;> exact le_max_right _ 0

/-- Any successful per-path update yields a non-negative value when the
previous value was non-negative: either an immediate exercise value
(a `max` with `0`) or the old value times a positive discount factor. -/
theorem updateValues_nonneg (cfg : HestonModel) (dt time : ℝ)
    (spotsAt : ℕ → ℝ) (predict : FittedModel) (V : ℕ → ℝ) (i : ℕ) (w : ℝ)
    (h : updateValues cfg dt time spotsAt predict V i = .ok w)
    (hV : 0 ≤ V i) : 0 ≤ w := by
  simp only [updateValues] at h
  obtain ⟨rate, _, hp⟩ := bind_ok_elim h
  split_ifs at hp <;> simp only [Except.ok.injEq] at hp <;> rw [← hp]
  · exact immediateExercise_nonneg _ _ _
  · exact mul_nonneg hV (Real.exp_nonneg _)
  · exact mul_nonneg hV (Real.exp_nonneg _)

/-- The update loop preserves (entrywise, with default `0`) non-negativity
of the value vector. -/
theorem updateAllAux_nonneg (cfg : HestonModel) (dt time : ℝ)
    (spotsAt : ℕ → ℝ) (predict : FittedModel) (V : ℕ → ℝ)
    (hV : ∀ i, 0 ≤ V i) :
    ∀ n L, updateAllAux cfg dt time spotsAt predict V n = .ok L →
      ∀ i, 0 ≤ L.getD i 0 := by
  intro n
  induction n with
  | zero =>
    intro L h i
    rw [updateAllAux] at h
    simp only [Except.ok.injEq] at h
    rw [← h]
    simp
  | succ k ih =>
    intro L h i
    rw [updateAllAux] at h
    obtain ⟨acc, hacc, h2⟩ := bind_ok_elim h
    obtain ⟨v, hv, h3⟩ := bind_ok_elim h2
    simp only [Except.ok.injEq] at h3
    rw [← h3]
    rcases Nat.lt_or_ge i acc.length with hi | hi
    · rw [List.getD_append _ _ _ _ hi]
      exact ih acc hacc i
    · rcases Nat.lt_or_ge i (acc.length + 1) with hi2 | hi2
      · have : i = acc.length := by omega
        subst this
        rw [List.getD_append_right _ _ _ _ hi]
        simpa using updateValues_nonneg cfg dt time spotsAt predict V k v hv (hV k)
      · rw [List.getD_eq_default _ _ (by simp; omega)]

/-- One backward-induction step preserves non-negativity of `V`. -/
theorem backwardStep_nonneg (cfg : HestonModel) (dt : ℝ)
    (reg : RegressionEngine) (spots : ℕ → ℕ → ℝ) (step : ℕ) (V V' : List ℝ)
    (h : backwardStep cfg dt reg spots step V = .ok V')
    (hV : ∀ i, 0 ≤ V.getD i 0) : ∀ i, 0 ≤ V'.getD i 0 := by
  simp only [backwardStep] at h
  obtain ⟨data, _, hrest⟩ := bind_ok_elim h
  by_cases hd : data.isEmpty
  · rw [if_pos hd] at hrest
    simp only [Except.ok.injEq] at hrest
    rw [← hrest]
    exact hV
  · rw [if_neg hd] at hrest
    obtain ⟨predict, _, hupd⟩ := bind_ok_elim hrest
    exact updateAllAux_nonneg cfg dt _ _ predict _ hV cfg.num_paths V' hupd

/-- The whole backward-induction loop preserves non-negativity of `V`. -/
theorem inductionSteps_nonneg (cfg : HestonModel) (dt : ℝ)
    (reg : RegressionEngine) (spots : ℕ → ℕ → ℝ) :
    ∀ s V V', inductionSteps cfg dt reg spots s V = .ok V' →
      (∀ i, 0 ≤ V.getD i 0) → ∀ i, 0 ≤ V'.getD i 0 := by
  intro s
  induction s with
  | zero =>
    intro V V' h hV
    rw [inductionSteps] at h
    simp only [Except.ok.injEq] at h
    rw [← h]
    exact hV
  | succ k ih =>
    intro V V' h hV
    rw [inductionSteps] at h
    obtain ⟨V1, hstep, hrec⟩ := bind_ok_elim h
    exact ih V1 V' hrec (backwardStep_nonneg cfg dt reg spots (k + 1) V V1 hstep hV)

/-- The final aggregation of non-negative values is non-negative. -/
theorem finalSum_nonneg (cfg : HestonModel) (dt : ℝ) (Vf : ℕ → ℝ)
    (hV : ∀ i, 0 ≤ Vf i) :
    ∀ n s, finalSum cfg dt Vf n = .ok s → 0 ≤ s := by
  intro n
  induction n with
  | zero =>
    intro s h
    rw [finalSum] at h
    simp only [Except.ok.injEq] at h
    rw [← h]
  | succ k ih =>
    intro s h
    rw [finalSum] at h
    obtain ⟨acc, hacc, h2⟩ := bind_ok_elim h
    obtain ⟨rate, _, h3⟩ := bind_ok_elim h2
    simp only [Except.ok.injEq] at h3
    rw [← h3]
    exact add_nonneg (ih acc hacc) (mul_nonneg (hV k) (Real.exp_nonneg _))

/-- Entries of a mapped range of payoffs are non-negative. -/
theorem payoffList_getD_nonneg (n : ℕ) (f : ℕ → ℝ) (hf : ∀ i, 0 ≤ f i) :
    ∀ i, 0 ≤ ((List.range n).map f).getD i 0 := by
  intro i
  rcases Nat.lt_or_ge i n with hi | hi
  · rw [List.getD_eq_getElem _ _ (by simpa using hi)]
    simpa using hf _
  · rw [List.getD_eq_default _ _ (by simpa using hi)]

/-- C10 (implicit): the per-path value vector stays entrywise non-negative
through the whole backward induction, and every price `HestonModel::price`
can return — American (mean of once-more-discounted induction values) or
European (discounted mean of terminal payoffs) — is non-negative. -/
theorem heston_price_nonneg :
    (∀ (cfg : HestonModel) (dt : ℝ) (reg : RegressionEngine)
      (spots : ℕ → ℕ → ℝ) (s : ℕ) (V V' : List ℝ),
        inductionSteps cfg dt reg spots s V = .ok V' →
        (∀ i, 0 ≤ V.getD i 0) → ∀ i, 0 ≤ V'.getD i 0) ∧
    (∀ (cfg : HestonModel) (reg : RegressionEngine) (spots : ℕ → ℕ → ℝ)
      (v : ℝ), hestonPriceGivenPaths cfg reg spots = .ok v → 0 ≤ v) := by
  constructor
  · intro cfg dt reg spots s V V' h hV
    exact inductionSteps_nonneg cfg dt reg spots s V V' h hV
  · intro cfg reg spots v h
    simp only [hestonPriceGivenPaths] at h
    cases hA : cfg.is_american with
    | true =>
      rw [if_pos hA] at h
      obtain ⟨V, hind, h2⟩ := bind_ok_elim h
      obtain ⟨s, hsum, h3⟩ := bind_ok_elim h2
      simp only [Except.ok.injEq] at h3
      rw [← h3]
      have hV0 : ∀ i, 0 ≤ ((List.range cfg.num_paths).map
          (fun i => immediateExercise cfg.option_type cfg.strike_price
            (spots i cfg.num_steps))).getD i 0 :=
        payoffList_getD_nonneg _ _ (fun i => immediateExercise_nonneg _ _ _)
      have hV : ∀ i, 0 ≤ V.getD i 0 :=
        inductionSteps_nonneg cfg _ reg spots _ _ V hind hV0
      exact div_nonneg (finalSum_nonneg cfg _ _ hV cfg.num_paths s hsum)
        (Nat.cast_nonneg _)
    | false =>
      rw [if_neg (by rw [hA]; exact Bool.false_ne_true)] at h
      obtain ⟨rate, _, hp⟩ := bind_ok_elim h
      simp only [Except.ok.injEq] at hp
      rw [← hp]
      have hsum : 0 ≤ ((List.range cfg.num_paths).map
          (fun i => immediateExercise cfg.option_type cfg.strike_price
            (spots i cfg.num_steps))).sum := by
        apply List.sum_nonneg
        intro x hx
        obtain ⟨i, -, rfl⟩ := List.mem_map.mp hx
        exact immediateExercise_nonneg _ _ _
      exact mul_nonneg (div_nonneg hsum (Nat.cast_nonneg _)) (Real.exp_nonneg _)

/-- Witness for C10: the concrete one-step American configuration prices
to `2`, which the theorem certifies to be non-negative. -/
theorem heston_price_nonneg_witness : (0 : ℝ) ≤ 2 := by
  refine heston_price_nonneg.2 cfgOneStep regNone (fun _ _ => 3) 2 ?_
  norm_num [hestonPriceGivenPaths, cfgOneStep, inductionSteps, finalSum,
    interpolate_rate_singleton, immediateExercise, Real.exp_zero]

/-- Sums over `Finset.range` coincide with sums of mapped `List.range`. -/
theorem listSum_range (n : ℕ) (f : ℕ → ℝ) :
    ((List.range n).map f).sum = ∑ i in Finset.range n, f i := by
  induction n with
  | zero => simp
  | succ k ih => rw [List.range_succ, Finset.sum_range_succ, ← ih]; simp

/-- C3: with `is_american = false`, `HestonModel::price` returns the
arithmetic mean over all paths of the terminal payoff, discounted once by
`exp(−rate(T)·T)` with the rate interpolated at the full time-to-expiry;
the result is the same under every regression engine (the
backward-induction engine and the regression are never invoked). -/
theorem heston_european_price (cfg : HestonModel) (reg : RegressionEngine)
    (draws : ℕ → ℕ → ℝ × ℝ) (paths : List (List (ℝ × ℝ))) (r : ℝ)
    (hE : cfg.is_american = false)
    (hsim : simulateAll cfg (cfg.time_to_expiry / (cfg.num_steps : ℝ))
      (Real.sqrt (cfg.time_to_expiry / (cfg.num_steps : ℝ))) draws
        cfg.num_paths = .ok paths)
    (hr : interpolate_rate cfg.risk_free_rate_curve cfg.time_to_expiry = .ok r) :
    HestonModel.price cfg reg draws =
      .ok (((∑ i in Finset.range cfg.num_paths, immediateExercise
          cfg.option_type cfg.strike_price
            (((paths.getD i []).getD cfg.num_steps (0, 0)).2)) /
        (cfg.num_paths : ℝ)) * Real.exp (-r * cfg.time_to_expiry)) ∧
    ∀ reg', HestonModel.price cfg reg' draws = HestonModel.price cfg reg draws := by
  have key : ∀ reg0 : RegressionEngine, HestonModel.price cfg reg0 draws =
      .ok (((∑ i in Finset.range cfg.num_paths, immediateExercise
          cfg.option_type cfg.strike_price
            (((paths.getD i []).getD cfg.num_steps (0, 0)).2)) /
        (cfg.num_paths : ℝ)) * Real.exp (-r * cfg.time_to_expiry)) := by
    intro reg0
    simp only [HestonModel.price]
    rw [hsim]
    simp only [exceptOk_bind, hestonPriceGivenPaths]
    rw [if_neg (by rw [hE]; exact Bool.false_ne_true), hr]
    simp only [exceptOk_bind, Except.ok.injEq]
    rw [listSum_range]
  exact ⟨key reg, fun reg' => (key reg').trans (key reg).symm⟩

/-- Concrete European configuration with zero steps (one degenerate path
staying at the spot). -/
def cfgEuroZero : HestonModel :=
  { option_type := .Call, spot_price := 3, strike_price := 1,
    time_to_expiry := 1, initial_variance := 0,
    risk_free_rate_curve := ⟨[0], [0]⟩, kappa := 0, theta := 0, sigma := 0,
    rho := 0, is_american := false,
    regression_method := .LeastSquaresMonteCarlo, num_paths := 1,
    num_steps := 0 }

/-- Witness for C3 on `cfgEuroZero`: one path with terminal spot `3`. -/
theorem heston_european_price_witness :
    HestonModel.price cfgEuroZero regNone (fun _ _ => (0, 0)) =
      .ok (((∑ i in Finset.range cfgEuroZero.num_paths, immediateExercise
          cfgEuroZero.option_type cfgEuroZero.strike_price
            ((([[((0 : ℝ), (3 : ℝ))]].getD i []).getD cfgEuroZero.num_steps (0, 0)).2)) /
        (cfgEuroZero.num_paths : ℝ)) *
          Real.exp (-0 * cfgEuroZero.time_to_expiry)) := by
  refine (heston_european_price cfgEuroZero regNone (fun _ _ => (0, 0))
    [[(0, 3)]] 0 rfl ?_ (interpolate_rate_singleton 0 0 _)).1
  norm_num [simulateAll, simulatePath, simulatePathAux, cfgEuroZero]

/-- With zero simulation steps every path is the degenerate single-sample
path at the initial spot, and the simulation stage always succeeds. -/
theorem simulateAll_zero_steps (cfg : HestonModel) (dt sqrt_dt : ℝ)
    (draws : ℕ → ℕ → ℝ × ℝ) (h0 : cfg.num_steps = 0) :
    ∀ n, ∃ L, simulateAll cfg dt sqrt_dt draws n = .ok L := by
  have hpath : ∀ draw, simulatePath cfg dt sqrt_dt draw =
      .ok [(0, cfg.spot_price)] := by
    intro draw
    simp only [simulatePath]
    rw [h0, simulatePathAux]
    rfl
  intro n
  induction n with
  | zero => exact ⟨[], by rw [simulateAll]⟩
  | succ k ih =>
    obtain ⟨L, hL⟩ := ih
    refine ⟨L ++ [[(0, cfg.spot_price)]], ?_⟩
    rw [simulateAll, hL]
    simp only [exceptOk_bind]
    rw [hpath]
    rfl

/-- C6 (amended): `HestonModel::price` performs no `num_steps` validation —
with `num_steps = 0` and any usable rate curve the call still returns `Ok`
(it prices the degenerate single-sample paths) — whereas `BinomialModel::price`
does reject zero steps with `InvalidInput`.  (The un-amended claim asserted
that the Heston call fails with `InvalidInput`.) -/
theorem heston_no_zero_steps_validation :
    (∀ (cfg : HestonModel) (reg : RegressionEngine) (draws : ℕ → ℕ → ℝ × ℝ),
      cfg.num_steps = 0 → cfg.risk_free_rate_curve.times ≠ [] →
      cfg.risk_free_rate_curve.times.length = cfg.risk_free_rate_curve.rates.length →
      ∃ v, HestonModel.price cfg reg draws = .ok v) ∧
    (∀ m : BinomialModel, m.steps = 0 → BinomialModel.price m =
      .error (.InvalidInput "Number of steps must be greater than zero.")) := by
  constructor
  · intro cfg reg draws h0 hne hlen
    obtain ⟨paths, hsim⟩ := simulateAll_zero_steps cfg _ _ draws h0 cfg.num_paths
    simp only [HestonModel.price]
    rw [hsim]
    simp only [exceptOk_bind]
    cases hA : cfg.is_american with
    | true =>
      simp only [hestonPriceGivenPaths]
      rw [if_pos hA, h0]
      rw [show (0 : ℕ) - 1 = 0 from rfl, inductionSteps]
      simp only [exceptOk_bind]
      obtain ⟨r0, hr0⟩ := interpolate_rate_ok cfg.risk_free_rate_curve 0 hne hlen
      rw [finalSum_ok cfg _ _ r0 hr0 cfg.num_paths]
      simp only [exceptOk_bind]
      exact ⟨_, rfl⟩
    | false =>
      simp only [hestonPriceGivenPaths]
      rw [if_neg (by rw [hA]; exact Bool.false_ne_true)]
      obtain ⟨r, hr⟩ := interpolate_rate_ok cfg.risk_free_rate_curve
        cfg.time_to_expiry hne hlen
      rw [hr]
      simp only [exceptOk_bind]
      exact ⟨_, rfl⟩
  · intro m h
    simp only [BinomialModel.price]
    rw [if_pos h]

/-- Counterexample to C6 as stated: the concrete zero-step request
`cfgEuroZero` is not rejected — `HestonModel::price` returns `Ok 2`
(payoff `3 − 1` on the degenerate path, zero rate), not an `InvalidInput`
error. -/
theorem heston_zero_steps_counterexample :
    HestonModel.price cfgEuroZero regNone (fun _ _ => (0, 0)) = .ok 2 := by
  norm_num [HestonModel.price, simulateAll, simulatePath, simulatePathAux,
    cfgEuroZero, hestonPriceGivenPaths, interpolate_rate_singleton,
    immediateExercise, Real.exp_zero, List.range_succ]

/-- Witness for C6 (amended): the zero-step Heston request succeeds while
the zero-step binomial request fails with `InvalidInput`. -/
theorem heston_no_zero_steps_validation_witness :
    (∃ v, HestonModel.price cfgEuroZero regNone (fun _ _ => (0, 0)) = .ok v) ∧
      BinomialModel.price
        { option_type := .Put, spot_price := 1, strike_price := 1,
          time_to_expiry := 1, volatility := 1, risk_free_rate := 0,
          steps := 0, is_american := true } =
        .error (.InvalidInput "Number of steps must be greater than zero.") :=
  ⟨heston_no_zero_steps_validation.1 cfgEuroZero regNone (fun _ _ => (0, 0))
      rfl (by simp [cfgEuroZero]) rfl,
    heston_no_zero_steps_validation.2 _ rfl⟩

/-- C5: curve construction stores its inputs without validation; at query
time a well-formed curve is clamped to the first rate at or before the
first knot, clamped to the last rate at or after the last knot, and
linearly interpolated on a strictly bracketing interior interval, while a
malformed curve (empty arrays or unequal lengths) makes every query fail
with `InvalidInput`. -/
theorem interpolate_rate_spec {K : Type} [LinearOrderedField K] :
    (∀ (ts rs : List K), (InterestRateCurve.new ts rs).times = ts ∧
      (InterestRateCurve.new ts rs).rates = rs) ∧
    (∀ (c : InterestRateCurve K) (time : K),
      c.times = [] ∨ c.rates = [] ∨ c.times.length ≠ c.rates.length →
      interpolate_rate c time =
        .error (.InvalidInput "Interest rate curve data is invalid.")) ∧
    (∀ (c : InterestRateCurve K) (time : K), wellFormedCurve c →
      time ≤ c.times.headD 0 →
      interpolate_rate c time = .ok (c.rates.headD 0)) ∧
    (∀ (c : InterestRateCurve K) (time : K), wellFormedCurve c →
      c.times.getLastD 0 ≤ time →
      interpolate_rate c time = .ok (c.rates.getLastD 0)) ∧
    (∀ (c : InterestRateCurve K) (time : K) (i : ℕ), wellFormedCurve c →
      i + 1 < c.times.length →
      c.times.getD i 0 < time → time < c.times.getD (i + 1) 0 →
      interpolate_rate c time = .ok (c.rates.getD i 0 +
        (c.rates.getD (i + 1) 0 - c.rates.getD i 0) *
          (time - c.times.getD i 0) /
            (c.times.getD (i + 1) 0 - c.times.getD i 0))) := by
  refine ⟨fun ts rs => ⟨rfl, rfl⟩, ?_, ?_, ?_, ?_⟩
  · intro c time h
    have hcond : c.times.isEmpty ∨ c.rates.isEmpty ∨
        c.times.length ≠ c.rates.length := by
      rcases h with h | h | h
      · exact Or.inl (by simp [h])
      · exact Or.inr (Or.inl (by simp [h]))
      · exact Or.inr (Or.inr h)
    simp only [interpolate_rate]
    rw [if_pos hcond]
  · intro c time hwf hh
    exact interpolate_rate_head c time hwf.1 hwf.2.1 hh
  · intro c time hwf hl
    exact interpolate_rate_last c time hwf hl
  · intro c time i hwf hi hlo hhi
    exact interpolate_rate_interior c time i hwf hi hlo hhi

/-- Witness for C5 over `ℚ`: an interior query on the curve
`times = [0, 2]`, `rates = [10, 20]` interpolates linearly, and the empty
curve rejects a query with `InvalidInput`. -/
theorem interpolate_rate_spec_witness :
    interpolate_rate (⟨[0, 2], [10, 20]⟩ : InterestRateCurve ℚ) 1 =
      .ok (10 + (20 - 10) * (1 - 0) / (2 - 0)) ∧
    interpolate_rate (⟨[], []⟩ : InterestRateCurve ℚ) 5 =
      .error (.InvalidInput "Interest rate curve data is invalid.") := by
  constructor
  · exact interpolate_rate_spec.2.2.2.2 ⟨[0, 2], [10, 20]⟩ 1 0
      ⟨by simp, rfl, by norm_num [List.chain'_cons, List.chain'_singleton]⟩
      (by norm_num) (by norm_num) (by norm_num)
  · exact interpolate_rate_spec.2.1 ⟨[], []⟩ 5 (Or.inl rfl)

/-- C9: on any non-empty curve with equal-length arrays (and non-decreasing
times, as the claim assumes), every query returns `Ok` through a boundary
clamp or a bracketing interval — the `InterpolationError` fallback is
unreachable.  (`f64` NaN queries have no counterpart in the real-number
embedding.) -/
theorem interpolate_rate_no_fallback {K : Type} [LinearOrderedField K]
    (c : InterestRateCurve K) (time : K) (h1 : c.times ≠ [])
    (h2 : c.times.length = c.rates.length)
    (_h3 : c.times.Chain' (· ≤ ·)) :
    ∃ r, interpolate_rate c time = .ok r :=
  interpolate_rate_ok c time h1 h2

/-- Witness for C9 over `ℚ` at a query beyond the last knot. -/
theorem interpolate_rate_no_fallback_witness :
    ∃ r, interpolate_rate (⟨[0, 1, 3], [5, 7, 9]⟩ : InterestRateCurve ℚ) 2 =
      .ok r :=
  interpolate_rate_no_fallback ⟨[0, 1, 3], [5, 7, 9]⟩ 2 (by simp) rfl
    (by norm_num [List.chain'_cons, List.chain'_singleton])

/-- The enumerated polynomial accumulation loop computes the polynomial
sum, for any starting index and accumulator. -/
theorem foldl_enumFrom_sum (s : ℝ) :
    ∀ (l : List ℝ) (k : ℕ) (a : ℝ),
      (l.enumFrom k).foldl (fun value ic => value + ic.2 * s ^ ic.1) a =
        a + ∑ i in Finset.range l.length, l.getD i 0 * s ^ (k + i) := by
  intro l
  induction l with
  | nil => intro k a; simp
  | cons c tl ih =>
    intro k a
    have henum : ((c :: tl).enumFrom k) = (k, c) :: tl.enumFrom (k + 1) := rfl
    rw [henum, List.foldl_cons, ih (k + 1) (a + c * s ^ k)]
    simp only [List.length_cons]
    rw [Finset.sum_range_succ']
    simp only [List.getD_cons_succ, List.getD_cons_zero]
    have hexp : ∀ x ∈ Finset.range tl.length,
        tl.getD x 0 * s ^ (k + 1 + x) = tl.getD x 0 * s ^ (k + (x + 1)) := by
      intro x _
      rw [show k + 1 + x = k + (x + 1) by omega]
    rw [Finset.sum_congr rfl hexp]
    ring

/-- C8: prediction is total for both regression variants.  The
random-forest wrapper returns the underlying prediction when the external
regressor succeeds and the sentinel `0` when it fails, never an error; the
polynomial (LSM) prediction is the everywhere-defined polynomial sum.
Only `fit` (typed `Except ...` in `RegressionEngine`) can raise
`RegressionError`. -/
theorem regression_predict_total :
    (∀ (m : RandomForestModel) (input : RegressionInput) (v : ℝ),
      m.model input.asset_price = some v →
        RandomForestModel.predict m input = v) ∧
    (∀ (m : RandomForestModel) (input : RegressionInput),
      m.model input.asset_price = none →
        RandomForestModel.predict m input = 0) ∧
    (∀ (m : LSMModel) (input : RegressionInput),
      LSMModel.predict m input = ∑ i in Finset.range m.coefficients.length,
        m.coefficients.getD i 0 * input.asset_price ^ i) := by
  refine ⟨?_, ?_, ?_⟩
  · intro m input v h
    simp only [RandomForestModel.predict, h]
  · intro m input h
    simp only [RandomForestModel.predict, h]
  · intro m input
    simp only [LSMModel.predict, List.enum]
    rw [foldl_enumFrom_sum input.asset_price m.coefficients 0 0]
    simp

/-- Witness for C8: a failing underlying regressor degrades to the zero
sentinel. -/
theorem regression_predict_total_witness :
    RandomForestModel.predict ⟨fun _ => none⟩ ⟨0, 5⟩ = 0 :=
  regression_predict_total.2.1 ⟨fun _ => none⟩ ⟨0, 5⟩ rfl

end OptionPricing
